import Mathlib

/-!
Verification of the twin-query Merkle tree in `src/merkle_tree/mod.rs`.

The repository commits to a list of leaves (each leaf a vector of M31 field
elements) with a binary Merkle tree over the external BWS-SHA256 hasher, and
produces twin membership proofs for adjacent leaf pairs.  The external hasher
`BWSSha256MerkleHasher::hash_node` is modelled as a free term algebra (an
ideal, collision-free, domain-separated hash), which is the standard model of
an opaque cryptographic hash: it is injective in all of its arguments.
Rust panics (failed `assert!` macros, out-of-bounds indexing, `usize`
underflow) are modelled by an `Except Panic` result.
-/

/-- M31 field elements: the Mersenne prime field with 2^31 - 1 elements.
The tree treats leaves as opaque sequences of these values. -/
abbrev M31 := Fin 2147483647

/-- Convenience constructor for concrete M31 values. -/
def mkM31 (n : Nat) : M31 := ⟨n % 2147483647, Nat.mod_lt n (by decide)⟩

/-- Free-term-algebra model of `BWSSha256Hash` values.  A hash value records
exactly the inputs that `hash_node` received: either no children and a column
of field elements (a leaf hash) or two children plus a column (a node hash).
This models an ideal domain-separated hash with no collisions. -/
inductive Hash where
  | leafHash : List M31 → Hash
  | nodeHash : Hash → Hash → List M31 → Hash
deriving DecidableEq

/-- Model of `BWSSha256MerkleHasher::hash_node(children_hashes, column)`:
the free constructor of the ideal-hash term algebra. -/
def hash_node : Option (Hash × Hash) → List M31 → Hash
  | none, column => Hash.leafHash column
  | some (a, b), column => Hash.nodeHash a b column

/-- Rust panic sources distinguished by kind: a failed `assert!`, an
out-of-bounds index, or a `usize` subtraction underflow. -/
inductive Panic where
  | assertFail : Panic
  | indexOOB : Panic
  | arithUnderflow : Panic
deriving DecidableEq

/-- Model of `usize::is_power_of_two`: true exactly when the number is a
power of two (in particular, false at 0 and true at 1). -/
def is_power_of_two (n : Nat) : Bool := decide (∃ k, k ≤ n ∧ n = 2 ^ k)

/-- Model of `slice::chunks_exact(2)`: consecutive disjoint pairs, dropping a
trailing element when the length is odd. -/
def chunksExact2 : List α → List (α × α)
  | a :: b :: rest => (a, b) :: chunksExact2 rest
  | _ => []

/-- Layer 0 of the tree, as built by `MerkleTree::new`: for each consecutive
leaf pair, hash each leaf with no children and combine the two results as a
node with an empty column. -/
def leafPairLayer (leaf_layer : List (List M31)) : List Hash :=
  (chunksExact2 leaf_layer).map fun v =>
    hash_node (some (hash_node none v.1, hash_node none v.2)) []

/-- One step of the `while cur.len() > 1` loop body in `MerkleTree::new`:
combine consecutive pairs of the current layer as nodes. -/
def nextLayer (cur : List Hash) : List Hash :=
  (chunksExact2 cur).map fun v => hash_node (some (v.1, v.2)) []

/-- Length of a `chunksExact2` result. -/
theorem chunksExact2_length (l : List α) : (chunksExact2 l).length = l.length / 2 := by
  induction l using chunksExact2.induct with
  | case1 a b rest ih => simp [chunksExact2, ih]; omega
  | case2 l h => cases l with
    | nil => simp [chunksExact2]
    | cons a t =>
      cases t with
      | nil => simp [chunksExact2]
      | cons b r => exact absurd rfl (h a b r)

/-- Length of a `nextLayer` result. -/
theorem nextLayer_length (cur : List Hash) : (nextLayer cur).length = cur.length / 2 := by
  simp [nextLayer, chunksExact2_length]

/-- The `while cur.len() > 1` loop of `MerkleTree::new`.  Returns the final
value of `cur` together with the list of layers pushed by the loop (the
initial layer 0 is pushed by the caller, before the loop). -/
def buildLoop (cur : List Hash) : List Hash × List (List Hash) :=
  if h : cur.length > 1 then
    let r := buildLoop (nextLayer cur)
    (r.1, nextLayer cur :: r.2)
  else (cur, [])
termination_by cur.length
decreasing_by rw [nextLayer_length]; omega

/-- Model of the `MerkleTree` struct. -/
structure MerkleTree where
  leaf_layer : List (List M31)
  intermediate_layers : List (List Hash)
  root_hash : Hash

/-- Model of the `MerkleTreeTwinProof` struct. -/
structure MerkleTreeTwinProof where
  left : List M31
  right : List M31
  siblings : List Hash
deriving DecidableEq

/-- Model of `MerkleTree::new`.  The `assert!(leaf_layer.len().is_power_of_two())`
panic is `Panic.assertFail`; the final `cur[0]` indexing of an empty layer
(reachable for a single-leaf input) is `Panic.indexOOB`. -/
def MerkleTree.new (leaf_layer : List (List M31)) : Except Panic MerkleTree :=
  if is_power_of_two leaf_layer.length then
    match (buildLoop (leafPairLayer leaf_layer)).1[0]? with
    | some root =>
      .ok ⟨leaf_layer, leafPairLayer leaf_layer :: (buildLoop (leafPairLayer leaf_layer)).2, root⟩
    | none => .error .indexOOB
  else .error .assertFail

/-- The sibling-collection loop of `MerkleTree::query`: for `n` iterations,
shift the position right by one, read the sibling `layer[pos ^ 1]` of the
current intermediate layer, and move to the next layer.  The position passed
to each call is the position already shifted for the layer at the head. -/
def collectSibs : Nat → List (List Hash) → Nat → Option (List Hash)
  | 0, _, _ => some []
  | _ + 1, [], _ => none
  | n + 1, layer :: rest, pos =>
    match layer[pos ^^^ 1]? with
    | some s => (collectSibs n rest (pos >>> 1)).map (s :: ·)
    | none => none

/-- Model of `MerkleTree::query`.  The `assert_eq!(pos & 1, 0)` panic is
`Panic.assertFail`; indexing `leaf_layer[pos]`, `leaf_layer[pos | 1]` or an
intermediate layer out of bounds is `Panic.indexOOB`; the `logn - 1`
subtraction with `logn = 0` is `Panic.arithUnderflow`. -/
def MerkleTree.query (t : MerkleTree) (pos : Nat) : Except Panic MerkleTreeTwinProof :=
  if pos &&& 1 ≠ 0 then .error .assertFail
  else
    match t.leaf_layer[pos]?, t.leaf_layer[pos ||| 1]? with
    | some left, some right =>
      if t.intermediate_layers.length = 0 then .error .arithUnderflow
      else
        match collectSibs (t.intermediate_layers.length - 1) t.intermediate_layers (pos >>> 1) with
        | some sibs => .ok ⟨left, right, sibs⟩
        | none => .error .indexOOB
    | _, _ => .error .indexOOB

/-- The `for i in 0..logn - 1` loop of `MerkleTree::verify_twin`, folded over
the sibling list (the preceding assertion pins `siblings.len()` to exactly
the number of loop iterations): at each step the running hash is combined
with the sibling on the side selected by the parity of the running query
position, which is then shifted right. -/
def foldVerify : List Hash → Nat → Hash → Hash
  | [], _, cur => cur
  | s :: rest, query, cur =>
    foldVerify rest (query >>> 1)
      (if query &&& 1 = 0 then hash_node (some (cur, s)) [] else hash_node (some (s, cur)) [])

/-- Model of `MerkleTree::verify_twin`.  Both `assert_eq!` panics are
`Panic.assertFail`; when `logn = 0` the Rust expression `logn - 1` cannot
equal any slice length (debug builds panic on the underflow, release builds
wrap to `usize::MAX`), so the length assertion fails for every proof. -/
def MerkleTree.verify_twin (root_hash : Hash) (logn : Nat) (proof : MerkleTreeTwinProof)
    (query : Nat) : Except Panic Bool :=
  if logn = 0 then .error .assertFail
  else if proof.siblings.length ≠ logn - 1 then .error .assertFail
  else if query &&& 1 ≠ 0 then .error .assertFail
  else
    .ok (foldVerify proof.siblings (query >>> 1)
      (hash_node (some (hash_node none proof.left, hash_node none proof.right)) []) == root_hash)

/-- Atomic units emitted into a script builder: a pushed field element or a
pushed hash. -/
inductive PushUnit where
  | fieldElem : M31 → PushUnit
  | hashVal : Hash → PushUnit
deriving DecidableEq

/-- Model of the script `Builder`: the ordered sequence of units pushed so far. -/
abbrev Builder := List PushUnit

/-- Model of `Pushable for M31`: pushing a field element appends one unit. -/
def pushM31 (v : M31) (builder : Builder) : Builder := builder ++ [PushUnit.fieldElem v]

/-- Model of `Pushable for BWSSha256Hash`: pushing a hash appends one unit. -/
def pushHash (h : Hash) (builder : Builder) : Builder := builder ++ [PushUnit.hashVal h]

/-- Model of `Pushable for &MerkleTreeTwinProof`: push every element of
`left`, then every element of `right`, then every hash in `siblings`. -/
def MerkleTreeTwinProof.bitcoin_script_push (proof : MerkleTreeTwinProof)
    (builder : Builder) : Builder :=
  proof.siblings.foldl (fun b e => pushHash e b)
    (proof.right.foldl (fun b v => pushM31 v b)
      (proof.left.foldl (fun b v => pushM31 v b) builder))

/-- Verification fold written exactly as the spec words it (section 4.3):
for each sibling, if `p` is even set `cur = nodeHash(cur, siblings[i])`, if
odd set `cur = nodeHash(siblings[i], cur)`, then set `p = p / 2`. -/
def specVerifyLoop : List Hash → Nat → Hash → Hash
  | [], _, cur => cur
  | s :: rest, p, cur =>
    specVerifyLoop rest (p / 2)
      (if p % 2 = 0 then Hash.nodeHash cur s [] else Hash.nodeHash s cur [])

/-- Layer 0 written exactly as the spec words it (section 4.1, step 1):
hash each leaf of a consecutive pair in leaf-hash mode and combine the two
results in node-hash mode. -/
def specLeafLayer (leaves : List (List M31)) : List Hash :=
  (chunksExact2 leaves).map fun v =>
    Hash.nodeHash (Hash.leafHash v.1) (Hash.leafHash v.2) []

/-- Layer step written exactly as the spec words it (section 4.1, step 2):
partition the layer into consecutive pairs and apply node-hash mode to each. -/
def specNodeLayer (layer : List Hash) : List Hash :=
  (chunksExact2 layer).map fun v => Hash.nodeHash v.1 v.2 []

/-! ### Arithmetic helpers for the index bit-twiddling -/

/-- XOR with 1 on an even number sets the low bit. -/
theorem xor_one_of_even {p : Nat} (hp : p % 2 = 0) : p ^^^ 1 = p + 1 := by
  apply Nat.eq_of_testBit_eq
  intro i
  cases i with
  | zero =>
    simp [Nat.testBit_xor, Nat.testBit_zero] <;> omega
  | succ i =>
    have h1 : Nat.testBit 1 (i + 1) = false := by
      simp [Nat.testBit_succ]
    rw [Nat.testBit_xor, h1, Bool.xor_false, Nat.testBit_succ, Nat.testBit_succ]
    have h2 : (p + 1) / 2 = p / 2 := by omega
    rw [h2]

/-- XOR with 1 on an odd number clears the low bit. -/
theorem xor_one_of_odd {p : Nat} (hp : p % 2 = 1) : p ^^^ 1 = p - 1 := by
  apply Nat.eq_of_testBit_eq
  intro i
  cases i with
  | zero =>
    simp [Nat.testBit_xor, Nat.testBit_zero] <;> omega
  | succ i =>
    have h1 : Nat.testBit 1 (i + 1) = false := by
      simp [Nat.testBit_succ]
    rw [Nat.testBit_xor, h1, Bool.xor_false, Nat.testBit_succ, Nat.testBit_succ]
    have h2 : (p - 1) / 2 = p / 2 := by omega
    rw [h2]

/-- OR with 1 on an even number sets the low bit. -/
theorem or_one_of_even {p : Nat} (hp : p % 2 = 0) : p ||| 1 = p + 1 := by
  apply Nat.eq_of_testBit_eq
  intro i
  cases i with
  | zero =>
    simp [Nat.testBit_or, Nat.testBit_zero] <;> omega
  | succ i =>
    have h1 : Nat.testBit 1 (i + 1) = false := by
      simp [Nat.testBit_succ]
    rw [Nat.testBit_or, h1, Bool.or_false, Nat.testBit_succ, Nat.testBit_succ]
    have h2 : (p + 1) / 2 = p / 2 := by omega
    rw [h2]

/-- Right shift by one is division by two. -/
theorem shiftRight_one_eq_div_two (n : Nat) : n >>> 1 = n / 2 := by
  rw [Nat.shiftRight_succ, Nat.shiftRight_zero]

/-- A power of two passes the `is_power_of_two` contract check. -/
theorem is_power_of_two_two_pow (k : Nat) : is_power_of_two (2 ^ k) = true := by
  simp only [is_power_of_two, decide_eq_true_eq]
  exact ⟨k, Nat.le_of_lt (Nat.lt_two_pow k), rfl⟩

/-! ### Indexing the pair layers -/

/-- Element `j` of a `chunksExact2` result is the pair at positions `2j` and
`2j + 1` of the input. -/
theorem chunksExact2_getElem? {l : List α} {j : Nat} {a b : α}
    (ha : l[2 * j]? = some a) (hb : l[2 * j + 1]? = some b) :
    (chunksExact2 l)[j]? = some (a, b) := by
  induction l using chunksExact2.induct generalizing j with
  | case1 x y rest ih =>
    cases j with
    | zero =>
      simp at ha hb
      simp [chunksExact2, ha, hb]
    | succ j =>
      have h2 : 2 * (j + 1) = 2 * j + 1 + 1 := by omega
      rw [h2] at ha hb
      simp only [List.getElem?_cons_succ] at ha hb
      simpa [chunksExact2] using ih ha hb
  | case2 l h =>
    exfalso
    cases l with
    | nil => simp at ha
    | cons x t =>
      cases t with
      | nil =>
        cases j with
        | zero => simp at hb
        | succ j =>
          have h2 : 2 * (j + 1) = 2 * j + 1 + 1 := by omega
          rw [h2] at ha
          simp at ha
      | cons y r => exact h x y r rfl

/-- Element `j` of `nextLayer cur` is the node hash of positions `2j` and
`2j + 1` of `cur`. -/
theorem nextLayer_getElem? {cur : List Hash} {j : Nat} {a b : Hash}
    (ha : cur[2 * j]? = some a) (hb : cur[2 * j + 1]? = some b) :
    (nextLayer cur)[j]? = some (Hash.nodeHash a b []) := by
  simp only [nextLayer, List.getElem?_map, chunksExact2_getElem? ha hb, Option.map_some]
  rfl

/-- Element `j` of `leafPairLayer leaves` is the node hash of the two leaf
hashes at positions `2j` and `2j + 1`. -/
theorem leafPairLayer_getElem? {leaves : List (List M31)} {j : Nat} {a b : List M31}
    (ha : leaves[2 * j]? = some a) (hb : leaves[2 * j + 1]? = some b) :
    (leafPairLayer leaves)[j]? = some (Hash.nodeHash (Hash.leafHash a) (Hash.leafHash b) []) := by
  simp only [leafPairLayer, List.getElem?_map, chunksExact2_getElem? ha hb, Option.map_some]
  rfl

/-- Length of `leafPairLayer`. -/
theorem leafPairLayer_length (leaves : List (List M31)) :
    (leafPairLayer leaves).length = leaves.length / 2 := by
  simp [leafPairLayer, chunksExact2_length]

/-! ### Structure of the build loop -/

/-- Unfolding of `buildLoop` when the current layer still has pairs to merge. -/
theorem buildLoop_of_gt {cur : List Hash} (h : cur.length > 1) :
    buildLoop cur =
      ((buildLoop (nextLayer cur)).1, nextLayer cur :: (buildLoop (nextLayer cur)).2) := by
  rw [buildLoop]
  simp [h]

/-- Unfolding of `buildLoop` when the current layer has at most one entry. -/
theorem buildLoop_of_le {cur : List Hash} (h : ¬ cur.length > 1) :
    buildLoop cur = (cur, []) := by
  rw [buildLoop]
  simp [h]

/-- Shape of the build loop on a layer of length `2 ^ k`: the loop pushes
exactly `k` further layers and ends with a single final hash. -/
theorem buildLoop_shape (k : Nat) :
    ∀ cur : List Hash, cur.length = 2 ^ k →
      (buildLoop cur).2.length = k ∧ (buildLoop cur).1.length = 1 := by
  induction k with
  | zero =>
    intro cur hc
    rw [Nat.pow_zero] at hc
    rw [buildLoop_of_le (by omega)]
    exact ⟨rfl, hc⟩
  | succ k ih =>
    intro cur hc
    have hgt : cur.length > 1 := by
      rw [hc]; exact Nat.one_lt_two_pow (Nat.succ_ne_zero k)
    have hnext : (nextLayer cur).length = 2 ^ k := by
      rw [nextLayer_length, hc, Nat.pow_succ]; omega
    obtain ⟨h1, h2⟩ := ih (nextLayer cur) hnext
    rw [buildLoop_of_gt hgt]
    exact ⟨by simpa using h1, h2⟩

/-- The final `cur` of the build loop is the last of the pushed layers
(or the starting layer when the loop never runs). -/
theorem buildLoop_getLast (k : Nat) :
    ∀ cur : List Hash, cur.length = 2 ^ k →
      (cur :: (buildLoop cur).2).getLast? = some (buildLoop cur).1 := by
  induction k with
  | zero =>
    intro cur hc
    rw [Nat.pow_zero] at hc
    rw [buildLoop_of_le (by omega)]
    rfl
  | succ k ih =>
    intro cur hc
    have hgt : cur.length > 1 := by
      rw [hc]; exact Nat.one_lt_two_pow (Nat.succ_ne_zero k)
    have hnext : (nextLayer cur).length = 2 ^ k := by
      rw [nextLayer_length, hc, Nat.pow_succ]; omega
    rw [buildLoop_of_gt hgt]
    rw [List.getLast?_cons_cons]
    exact ih (nextLayer cur) hnext

/-- Consecutive layers produced by the build loop are related by `nextLayer`. -/
theorem buildLoop_chain (k : Nat) :
    ∀ cur : List Hash, cur.length = 2 ^ k →
      ∀ i (L L' : List Hash), (cur :: (buildLoop cur).2)[i]? = some L →
        (cur :: (buildLoop cur).2)[i + 1]? = some L' → L' = nextLayer L := by
  induction k with
  | zero =>
    intro cur hc i L L' _ hL'
    rw [Nat.pow_zero] at hc
    rw [buildLoop_of_le (by omega)] at hL'
    rcases i with _ | i <;> simp at hL'
  | succ k ih =>
    intro cur hc i L L' hL hL'
    have hgt : cur.length > 1 := by
      rw [hc]; exact Nat.one_lt_two_pow (Nat.succ_ne_zero k)
    have hnext : (nextLayer cur).length = 2 ^ k := by
      rw [nextLayer_length, hc, Nat.pow_succ]; omega
    have hsplit : (buildLoop cur).2 = nextLayer cur :: (buildLoop (nextLayer cur)).2 :=
      congrArg Prod.snd (buildLoop_of_gt hgt)
    rw [hsplit] at hL hL'
    cases i with
    | zero =>
      rw [List.getElem?_cons_zero, Option.some.injEq] at hL
      rw [List.getElem?_cons_succ, List.getElem?_cons_zero, Option.some.injEq] at hL'
      rw [← hL, ← hL']
    | succ i =>
      rw [List.getElem?_cons_succ] at hL hL'
      exact ih (nextLayer cur) hnext i L L' hL hL'

/-! ### The sibling path reconstructs the root -/

/-- A successful sibling collection returns one sibling per iteration. -/
theorem collectSibs_length :
    ∀ (n : Nat) (layers : List (List Hash)) (p : Nat) (sibs : List Hash),
      collectSibs n layers p = some sibs → sibs.length = n := by
  intro n
  induction n with
  | zero =>
    intro layers p sibs h
    simp only [collectSibs, Option.some.injEq] at h
    rw [← h]
    rfl
  | succ n ih =>
    intro layers p sibs h
    cases layers with
    | nil => simp [collectSibs] at h
    | cons layer rest =>
      simp only [collectSibs] at h
      cases hx : layer[p ^^^ 1]? with
      | none => rw [hx] at h; simp at h
      | some s =>
        rw [hx] at h
        cases hc : collectSibs n rest (p >>> 1) with
        | none => rw [hc] at h; simp at h
        | some t =>
          rw [hc] at h
          simp at h
          rw [← h]
          simp [ih rest (p >>> 1) t hc]

/-- Entry `i` of a successful sibling collection is the sibling
`layers[i][(p / 2 ^ i) ^^^ 1]`. -/
theorem collectSibs_getElem? :
    ∀ (n : Nat) (layers : List (List Hash)) (p : Nat) (sibs : List Hash),
      collectSibs n layers p = some sibs →
      ∀ i, i < n → ∃ L s, layers[i]? = some L ∧ sibs[i]? = some s ∧
        L[(p / 2 ^ i) ^^^ 1]? = some s := by
  intro n
  induction n with
  | zero =>
    intro layers p sibs _ i hi
    omega
  | succ n ih =>
    intro layers p sibs h i hi
    cases layers with
    | nil => simp [collectSibs] at h
    | cons layer rest =>
      simp only [collectSibs] at h
      cases hx : layer[p ^^^ 1]? with
      | none => rw [hx] at h; simp at h
      | some s =>
        rw [hx] at h
        cases hc : collectSibs n rest (p >>> 1) with
        | none => rw [hc] at h; simp at h
        | some t =>
          rw [hc] at h
          simp at h
          rw [← h]
          cases i with
          | zero =>
            refine ⟨layer, s, by simp, by simp, ?_⟩
            simpa using hx
          | succ i =>
            obtain ⟨L, s', hL, hs', hLs⟩ := ih rest (p >>> 1) t hc i (by omega)
            refine ⟨L, s', by simpa using hL, by simpa using hs', ?_⟩
            rw [shiftRight_one_eq_div_two] at hLs
            have hdd : p / 2 / 2 ^ i = p / 2 ^ (i + 1) := by
              rw [Nat.div_div_eq_div_mul, Nat.pow_succ, Nat.mul_comm 2 (2 ^ i)]
            rw [hdd] at hLs
            exact hLs

/-- Central reconstruction lemma: starting from a layer of length `2 ^ k` and
a known entry of that layer, the sibling collection succeeds and folding the
collected siblings from that entry yields exactly the single final hash of
the build loop. -/
theorem buildLoop_reconstruct (k : Nat) :
    ∀ (cur : List Hash) (p : Nat) (c : Hash), cur.length = 2 ^ k → cur[p]? = some c →
      ∃ sibs, collectSibs k (cur :: (buildLoop cur).2) p = some sibs ∧
        (buildLoop cur).1[0]? = some (foldVerify sibs p c) := by
  induction k with
  | zero =>
    intro cur p c hc hp
    rw [Nat.pow_zero] at hc
    have hplt : p < cur.length := (List.getElem?_eq_some_iff.mp hp).1
    have hp0 : p = 0 := by omega
    subst hp0
    rw [buildLoop_of_le (by omega)]
    exact ⟨[], rfl, by simpa [foldVerify] using hp⟩
  | succ k ih =>
    intro cur p c hc hp
    have hgt : cur.length > 1 := by
      rw [hc]; exact Nat.one_lt_two_pow (Nat.succ_ne_zero k)
    have hnext : (nextLayer cur).length = 2 ^ k := by
      rw [nextLayer_length, hc, Nat.pow_succ]; omega
    have hplt : p < cur.length := (List.getElem?_eq_some_iff.mp hp).1
    have hev : cur.length % 2 = 0 := by rw [hc, Nat.pow_succ]; omega
    have hsplit : (buildLoop cur).2 = nextLayer cur :: (buildLoop (nextLayer cur)).2 :=
      congrArg Prod.snd (buildLoop_of_gt hgt)
    have hfst : (buildLoop cur).1 = (buildLoop (nextLayer cur)).1 := by
      rw [buildLoop_of_gt hgt]
    rcases Nat.mod_two_eq_zero_or_one p with hpe | hpo
    · have hxor : p ^^^ 1 = p + 1 := xor_one_of_even hpe
      have hp1lt : p + 1 < cur.length := by omega
      obtain ⟨s, hs⟩ : ∃ s, cur[p + 1]? = some s := ⟨_, List.getElem?_eq_getElem hp1lt⟩
      have h2j : 2 * (p / 2) = p := by omega
      have h2j1 : 2 * (p / 2) + 1 = p + 1 := by omega
      have hnx : (nextLayer cur)[p / 2]? =
          some (Hash.nodeHash c (s) []) := by
        apply nextLayer_getElem?
        · rw [h2j]; exact hp
        · rw [h2j1]; exact hs
      obtain ⟨sibs', hcs, hfin⟩ :=
        ih (nextLayer cur) (p / 2) (Hash.nodeHash c (s) []) hnext hnx
      have hand : p &&& 1 = 0 := by rw [Nat.and_one_is_mod, hpe]
      refine ⟨s :: sibs', ?_, ?_⟩
      · rw [hsplit]
        simp only [collectSibs]
        rw [hxor, hs, shiftRight_one_eq_div_two, hcs]
        rfl
      · rw [hfst, hfin]
        simp only [foldVerify, shiftRight_one_eq_div_two, hand, if_pos]
        rfl
    · have hxor : p ^^^ 1 = p - 1 := xor_one_of_odd hpo
      have hp1 : 1 ≤ p := by omega
      have hpm1lt : p - 1 < cur.length := by omega
      obtain ⟨s, hs⟩ : ∃ s, cur[p - 1]? = some s := ⟨_, List.getElem?_eq_getElem hpm1lt⟩
      have h2j : 2 * (p / 2) = p - 1 := by omega
      have h2j1 : 2 * (p / 2) + 1 = p := by omega
      have hnx : (nextLayer cur)[p / 2]? =
          some (Hash.nodeHash (s) c []) := by
        apply nextLayer_getElem?
        · rw [h2j]; exact hs
        · rw [h2j1]; exact hp
      obtain ⟨sibs', hcs, hfin⟩ :=
        ih (nextLayer cur) (p / 2) (Hash.nodeHash (s) c []) hnext hnx
      have hand : p &&& 1 = 1 := by rw [Nat.and_one_is_mod, hpo]
      refine ⟨s :: sibs', ?_, ?_⟩
      · rw [hsplit]
        simp only [collectSibs]
        rw [hxor, hs, shiftRight_one_eq_div_two, hcs]
        rfl
      · rw [hfst, hfin]
        simp only [foldVerify, shiftRight_one_eq_div_two, hand]
        rfl

/-! ### Honest construction and query -/

/-- Construction succeeds on `2 ^ k` leaves (`k ≥ 1`) and stores exactly the
leaves, the layers pushed by the build loop, and the head of the final layer
as root. -/
theorem merkle_new_spec (leaves : List (List M31)) (k : Nat) (hk : 1 ≤ k)
    (hlen : leaves.length = 2 ^ k) :
    ∃ root, (buildLoop (leafPairLayer leaves)).1[0]? = some root ∧
      MerkleTree.new leaves =
        .ok ⟨leaves, leafPairLayer leaves :: (buildLoop (leafPairLayer leaves)).2, root⟩ := by
  have hpow2 : 2 ^ k = 2 ^ (k - 1) * 2 := by
    rw [← Nat.pow_succ]
    congr 1
    omega
  have hL0 : (leafPairLayer leaves).length = 2 ^ (k - 1) := by
    rw [leafPairLayer_length, hlen, hpow2]
    omega
  obtain ⟨-, hfin⟩ := buildLoop_shape (k - 1) _ hL0
  have hroot : ∃ root, (buildLoop (leafPairLayer leaves)).1[0]? = some root := by
    cases hfl : (buildLoop (leafPairLayer leaves)).1 with
    | nil => rw [hfl] at hfin; simp at hfin
    | cons r t => exact ⟨r, by simp⟩
  obtain ⟨root, hroot⟩ := hroot
  have hpow : is_power_of_two leaves.length = true := by
    rw [hlen]; exact is_power_of_two_two_pow k
  refine ⟨root, hroot, ?_⟩
  simp only [MerkleTree.new, hpow, if_true, hroot]

/-- Honest run: on a tree over `2 ^ k` leaves (`k ≥ 1`), querying an even
position in range succeeds, returns the two leaves of the queried pair plus
`k - 1` siblings, and folding those siblings from the pair hash reproduces
the stored root. -/
theorem merkle_query_spec (leaves : List (List M31)) (k q : Nat) (hk : 1 ≤ k)
    (hlen : leaves.length = 2 ^ k) (hq : q % 2 = 0) (hlt : q < leaves.length) :
    ∃ (t : MerkleTree) (lv rv : List M31) (sibs : List Hash),
      MerkleTree.new leaves = .ok t ∧
      t.leaf_layer = leaves ∧
      t.intermediate_layers = leafPairLayer leaves :: (buildLoop (leafPairLayer leaves)).2 ∧
      t.intermediate_layers.length = k ∧
      leaves[q]? = some lv ∧ leaves[q + 1]? = some rv ∧
      t.query q = .ok ⟨lv, rv, sibs⟩ ∧
      sibs.length = k - 1 ∧
      collectSibs (k - 1) t.intermediate_layers (q / 2) = some sibs ∧
      foldVerify sibs (q / 2)
        (Hash.nodeHash (Hash.leafHash lv) (Hash.leafHash rv) []) = t.root_hash := by
  obtain ⟨root, hroot, hnew⟩ := merkle_new_spec leaves k hk hlen
  have hpow2 : 2 ^ k = 2 ^ (k - 1) * 2 := by
    rw [← Nat.pow_succ]
    congr 1
    omega
  have hL0 : (leafPairLayer leaves).length = 2 ^ (k - 1) := by
    rw [leafPairLayer_length, hlen, hpow2]
    omega
  obtain ⟨hrest, -⟩ := buildLoop_shape (k - 1) _ hL0
  have hev : leaves.length % 2 = 0 := by rw [hlen, hpow2]; omega
  have hq1lt : q + 1 < leaves.length := by omega
  obtain ⟨lv, hlv⟩ : ∃ lv, leaves[q]? = some lv := ⟨_, List.getElem?_eq_getElem hlt⟩
  obtain ⟨rv, hrv⟩ : ∃ rv, leaves[q + 1]? = some rv := ⟨_, List.getElem?_eq_getElem hq1lt⟩
  have h2j : 2 * (q / 2) = q := by omega
  have h2j1 : 2 * (q / 2) + 1 = q + 1 := by omega
  have hc0 : (leafPairLayer leaves)[q / 2]? =
      some (Hash.nodeHash (Hash.leafHash (lv))
        (Hash.leafHash (rv)) []) := by
    apply leafPairLayer_getElem?
    · rw [h2j]; exact hlv
    · rw [h2j1]; exact hrv
  obtain ⟨sibs, hcs, hfin⟩ := buildLoop_reconstruct (k - 1) (leafPairLayer leaves) (q / 2) _ hL0 hc0
  have hfold : foldVerify sibs (q / 2)
      (Hash.nodeHash (Hash.leafHash (lv))
        (Hash.leafHash (rv)) []) = root := by
    rw [hroot] at hfin
    exact (Option.some.injEq _ _ ▸ hfin :).symm
  have hlayerslen :
      (leafPairLayer leaves :: (buildLoop (leafPairLayer leaves)).2).length = k := by
    simp [hrest]
    omega
  have hand : q &&& 1 = 0 := by rw [Nat.and_one_is_mod, hq]
  have hor : q ||| 1 = q + 1 := or_one_of_even hq
  refine ⟨⟨leaves, leafPairLayer leaves :: (buildLoop (leafPairLayer leaves)).2, root⟩,
    lv, rv, sibs, hnew, rfl, rfl, hlayerslen, hlv, hrv, ?_,
    collectSibs_length _ _ _ _ hcs, ?_, hfold⟩
  · simp only [MerkleTree.query, hand, hor, hlv, hrv, ne_eq, shiftRight_one_eq_div_two,
      hlayerslen, not_true_eq_false, if_false]
    rw [if_neg (by omega), hcs]
  · simpa using hcs

/-- With consistent depth, sibling count and even query, `verify_twin`
returns exactly the comparison of the folded hash with the root. -/
theorem verify_twin_ok (root : Hash) (logn : Nat) (proof : MerkleTreeTwinProof) (q : Nat)
    (hlogn : 1 ≤ logn) (hslen : proof.siblings.length = logn - 1) (hq : q % 2 = 0) :
    MerkleTree.verify_twin root logn proof q =
      .ok (foldVerify proof.siblings (q / 2)
        (Hash.nodeHash (Hash.leafHash proof.left) (Hash.leafHash proof.right) []) == root) := by
  have hand : q &&& 1 = 0 := by rw [Nat.and_one_is_mod, hq]
  simp only [MerkleTree.verify_twin, hand, ne_eq, not_true_eq_false, if_false,
    shiftRight_one_eq_div_two, hslen]
  rw [if_neg (by omega)]
  simp [hash_node]

/-- The verification fold is injective in the starting hash and the sibling
list, for a fixed query position and sibling count: the hash model is a free
term algebra, so distinct inputs fold to distinct roots. -/
theorem foldVerify_inj :
    ∀ (sibs sibs' : List Hash) (q : Nat) (cur cur' : Hash),
      sibs.length = sibs'.length →
      foldVerify sibs q cur = foldVerify sibs' q cur' → cur = cur' ∧ sibs = sibs' := by
  intro sibs
  induction sibs with
  | nil =>
    intro sibs' q cur cur' hlen hf
    cases sibs' with
    | nil => exact ⟨hf, rfl⟩
    | cons s' rest' => simp at hlen
  | cons s rest ih =>
    intro sibs' q cur cur' hlen hf
    cases sibs' with
    | nil => simp at hlen
    | cons s' rest' =>
      simp only [foldVerify] at hf
      have hlen' : rest.length = rest'.length := by simpa using hlen
      obtain ⟨hcur, hrest⟩ := ih rest' (q >>> 1) _ _ hlen' hf
      by_cases hpar : q &&& 1 = 0
      · rw [if_pos hpar, if_pos hpar] at hcur
        simp only [hash_node, Hash.nodeHash.injEq] at hcur
        exact ⟨hcur.1, by rw [hrest, hcur.2.1]⟩
      · rw [if_neg hpar, if_neg hpar] at hcur
        simp only [hash_node, Hash.nodeHash.injEq] at hcur
        exact ⟨hcur.2.1, by rw [hrest, hcur.1]⟩

/-- The verification fold of the code equals the fold as the spec words it. -/
theorem foldVerify_eq_specVerifyLoop :
    ∀ (sibs : List Hash) (p : Nat) (cur : Hash),
      foldVerify sibs p cur = specVerifyLoop sibs p cur := by
  intro sibs
  induction sibs with
  | nil => intro p cur; rfl
  | cons s rest ih =>
    intro p cur
    simp only [foldVerify, specVerifyLoop, Nat.and_one_is_mod, shiftRight_one_eq_div_two,
      hash_node]
    rw [ih]

/-! ### Claims -/

/-- C1: for every MerkleTree constructed from N = 2^k leaves (k ≥ 1) and
every even index q with 0 ≤ q < N, verifying the proof produced by querying
that tree succeeds: `Verify(tree.root, layers.len(), Query(tree, q), q)`
returns true. -/
theorem claim_C1_query_verify_roundtrip (leaves : List (List M31)) (k q : Nat)
    (hk : 1 ≤ k) (hlen : leaves.length = 2 ^ k) (hq : q % 2 = 0) (hlt : q < leaves.length) :
    ∃ t proof, MerkleTree.new leaves = .ok t ∧ t.query q = .ok proof ∧
      MerkleTree.verify_twin t.root_hash t.intermediate_layers.length proof q = .ok true := by
  obtain ⟨t, lv, rv, sibs, hnew, hleaf, hlayers, hlayerslen, hlv, hrv, hquery, hslen, hcs,
    hfold⟩ := merkle_query_spec leaves k q hk hlen hq hlt
  refine ⟨t, ⟨lv, rv, sibs⟩, hnew, hquery, ?_⟩
  rw [verify_twin_ok t.root_hash t.intermediate_layers.length ⟨lv, rv, sibs⟩ q
    (by rw [hlayerslen]; exact hk) (by rw [hlayerslen]; exact hslen) hq]
  simp [hfold]

/-- Witness for C1 at a concrete four-leaf tree and query index 2. -/
theorem claim_C1_query_verify_roundtrip_witness :
    ∃ t proof, MerkleTree.new [[mkM31 1], [mkM31 2], [mkM31 3], [mkM31 4]] = .ok t ∧
      t.query 2 = .ok proof ∧
      MerkleTree.verify_twin t.root_hash t.intermediate_layers.length proof 2 = .ok true :=
  claim_C1_query_verify_roundtrip [[mkM31 1], [mkM31 2], [mkM31 3], [mkM31 4]] 2 2
    (by decide) (by decide) (by decide) (by decide)

/-- C2: for every root, depth ≥ 1, proof with `siblings.len() == depth - 1`
and even q, Verify computes the pair hash of the two leaf hashes, then folds
the siblings placing each on the side given by the parity of the halved
index, and returns exactly the boolean comparison with the root. -/
theorem claim_C2_verify_computation (root : Hash) (depth : Nat)
    (proof : MerkleTreeTwinProof) (q : Nat) (hd : 1 ≤ depth)
    (hslen : proof.siblings.length = depth - 1) (hq : q % 2 = 0) :
    MerkleTree.verify_twin root depth proof q =
      .ok (decide (specVerifyLoop proof.siblings (q / 2)
        (Hash.nodeHash (Hash.leafHash proof.left) (Hash.leafHash proof.right) []) = root)) := by
  rw [verify_twin_ok root depth proof q hd hslen hq, foldVerify_eq_specVerifyLoop]
  by_cases h : specVerifyLoop proof.siblings (q / 2)
      (Hash.nodeHash (Hash.leafHash proof.left) (Hash.leafHash proof.right) []) = root
  · simp [h]
  · simp [h]

/-- Witness for C2 at depth 1 with an empty sibling list. -/
theorem claim_C2_verify_computation_witness :
    MerkleTree.verify_twin (Hash.leafHash []) 1 ⟨[], [], []⟩ 0 =
      .ok (decide (specVerifyLoop [] 0
        (Hash.nodeHash (Hash.leafHash []) (Hash.leafHash []) []) = Hash.leafHash [])) :=
  claim_C2_verify_computation (Hash.leafHash []) 1 ⟨[], [], []⟩ 0 (by decide) (by decide)
    (by decide)

/-- C3: for every tree with N = 2^k leaves (k ≥ 1) and every even q < N,
the query returns the two leaves at q and q + 1 together with
`layers.len() - 1` siblings, where sibling i is `layers[i][p XOR 1]` with
`p = q / 2` halved i times. -/
theorem claim_C3_query_contents (leaves : List (List M31)) (k q : Nat)
    (hk : 1 ≤ k) (hlen : leaves.length = 2 ^ k) (hq : q % 2 = 0) (hlt : q < leaves.length) :
    ∃ t proof, MerkleTree.new leaves = .ok t ∧ t.query q = .ok proof ∧
      leaves[q]? = some proof.left ∧ leaves[q + 1]? = some proof.right ∧
      proof.siblings.length = t.intermediate_layers.length - 1 ∧
      (∀ i, i < proof.siblings.length →
        ∃ L s, t.intermediate_layers[i]? = some L ∧ proof.siblings[i]? = some s ∧
          L[(q / 2 ^ (i + 1)) ^^^ 1]? = some s) := by
  obtain ⟨t, lv, rv, sibs, hnew, hleaf, hlayers, hlayerslen, hlv, hrv, hquery, hslen, hcs,
    hfold⟩ := merkle_query_spec leaves k q hk hlen hq hlt
  refine ⟨t, ⟨lv, rv, sibs⟩, hnew, hquery, hlv, hrv, ?_, ?_⟩
  · rw [hlayerslen]
    exact hslen
  · intro i hi
    have hi' : i < k - 1 := by
      have := hslen
      simp only at hi
      omega
    obtain ⟨L, s, hL, hs, hLs⟩ :=
      collectSibs_getElem? (k - 1) t.intermediate_layers (q / 2) sibs hcs i hi'
    refine ⟨L, s, hL, hs, ?_⟩
    have hdd : q / 2 / 2 ^ i = q / 2 ^ (i + 1) := by
      rw [Nat.div_div_eq_div_mul, Nat.pow_succ, Nat.mul_comm 2 (2 ^ i)]
    rwa [hdd] at hLs

/-- Witness for C3 at a concrete four-leaf tree and query index 0. -/
theorem claim_C3_query_contents_witness :
    ∃ t proof, MerkleTree.new [[mkM31 5], [mkM31 6], [mkM31 7], [mkM31 8]] = .ok t ∧
      t.query 0 = .ok proof ∧
      [[mkM31 5], [mkM31 6], [mkM31 7], [mkM31 8]][0]? = some proof.left ∧
      [[mkM31 5], [mkM31 6], [mkM31 7], [mkM31 8]][0 + 1]? = some proof.right ∧
      proof.siblings.length = t.intermediate_layers.length - 1 ∧
      (∀ i, i < proof.siblings.length →
        ∃ L s, t.intermediate_layers[i]? = some L ∧ proof.siblings[i]? = some s ∧
          L[(0 / 2 ^ (i + 1)) ^^^ 1]? = some s) :=
  claim_C3_query_contents [[mkM31 5], [mkM31 6], [mkM31 7], [mkM31 8]] 2 0
    (by decide) (by decide) (by decide) (by decide)

/-- The layer-0 computation of the code coincides with the spec wording. -/
theorem leafPairLayer_eq_spec (leaves : List (List M31)) :
    leafPairLayer leaves = specLeafLayer leaves := rfl

/-- The layer-step computation of the code coincides with the spec wording. -/
theorem nextLayer_eq_spec (layer : List Hash) : nextLayer layer = specNodeLayer layer := rfl

/-- C4: construction computes layer 0 by hashing consecutive leaf pairs in
leaf-hash mode and combining in node-hash mode; every higher layer applies
node-hash mode to consecutive pairs of the previous layer, down to a length-1
root layer, and all of these layers are stored. -/
theorem claim_C4_construction_layers (leaves : List (List M31)) (k : Nat)
    (hk : 1 ≤ k) (hlen : leaves.length = 2 ^ k) :
    ∃ t, MerkleTree.new leaves = .ok t ∧
      t.intermediate_layers[0]? = some (specLeafLayer leaves) ∧
      (∀ i L L', t.intermediate_layers[i]? = some L →
        t.intermediate_layers[i + 1]? = some L' → L' = specNodeLayer L) ∧
      (∃ L, t.intermediate_layers.getLast? = some L ∧ L.length = 1) := by
  obtain ⟨root, hroot, hnew⟩ := merkle_new_spec leaves k hk hlen
  have hpow2 : 2 ^ k = 2 ^ (k - 1) * 2 := by
    rw [← Nat.pow_succ]
    congr 1
    omega
  have hL0 : (leafPairLayer leaves).length = 2 ^ (k - 1) := by
    rw [leafPairLayer_length, hlen, hpow2]
    omega
  obtain ⟨-, hfin⟩ := buildLoop_shape (k - 1) _ hL0
  refine ⟨_, hnew, ?_, ?_, ?_⟩
  · rw [← leafPairLayer_eq_spec]
    simp
  · intro i L L' hL hL'
    rw [← nextLayer_eq_spec]
    exact buildLoop_chain (k - 1) (leafPairLayer leaves) hL0 i L L' hL hL'
  · exact ⟨(buildLoop (leafPairLayer leaves)).1,
      buildLoop_getLast (k - 1) (leafPairLayer leaves) hL0, hfin⟩

/-- Witness for C4 at a concrete four-leaf tree. -/
theorem claim_C4_construction_layers_witness :
    ∃ t, MerkleTree.new [[mkM31 9], [mkM31 10], [mkM31 11], [mkM31 12]] = .ok t ∧
      t.intermediate_layers[0]? =
        some (specLeafLayer [[mkM31 9], [mkM31 10], [mkM31 11], [mkM31 12]]) ∧
      (∀ i L L', t.intermediate_layers[i]? = some L →
        t.intermediate_layers[i + 1]? = some L' → L' = specNodeLayer L) ∧
      (∃ L, t.intermediate_layers.getLast? = some L ∧ L.length = 1) :=
  claim_C4_construction_layers [[mkM31 9], [mkM31 10], [mkM31 11], [mkM31 12]] 2
    (by decide) (by decide)

/-- C5: a tree built from 2^k leaves (k ≥ 1) stores exactly k layers, the
first of length N / 2, each further layer half the length of the previous,
ending in a length-1 layer whose single entry is the stored root. -/
theorem claim_C5_layer_shape (leaves : List (List M31)) (k : Nat)
    (hk : 1 ≤ k) (hlen : leaves.length = 2 ^ k) :
    ∃ t, MerkleTree.new leaves = .ok t ∧
      t.intermediate_layers.length = k ∧
      (∃ L0, t.intermediate_layers[0]? = some L0 ∧ L0.length = leaves.length / 2) ∧
      (∀ i L L', t.intermediate_layers[i]? = some L →
        t.intermediate_layers[i + 1]? = some L' → L'.length = L.length / 2) ∧
      (∃ L, t.intermediate_layers.getLast? = some L ∧ L.length = 1 ∧
        L[0]? = some t.root_hash) := by
  obtain ⟨root, hroot, hnew⟩ := merkle_new_spec leaves k hk hlen
  have hpow2 : 2 ^ k = 2 ^ (k - 1) * 2 := by
    rw [← Nat.pow_succ]
    congr 1
    omega
  have hL0 : (leafPairLayer leaves).length = 2 ^ (k - 1) := by
    rw [leafPairLayer_length, hlen, hpow2]
    omega
  obtain ⟨hrest, hfin⟩ := buildLoop_shape (k - 1) _ hL0
  refine ⟨_, hnew, ?_, ?_, ?_, ?_⟩
  · simp [hrest]
    omega
  · exact ⟨leafPairLayer leaves, by simp, leafPairLayer_length leaves⟩
  · intro i L L' hL hL'
    have hnx := buildLoop_chain (k - 1) (leafPairLayer leaves) hL0 i L L' hL hL'
    rw [hnx, nextLayer_length]
  · exact ⟨(buildLoop (leafPairLayer leaves)).1,
      buildLoop_getLast (k - 1) (leafPairLayer leaves) hL0, hfin, hroot⟩

/-- Witness for C5 at a concrete two-leaf tree. -/
theorem claim_C5_layer_shape_witness :
    ∃ t, MerkleTree.new [[mkM31 1], [mkM31 2]] = .ok t ∧
      t.intermediate_layers.length = 1 ∧
      (∃ L0, t.intermediate_layers[0]? = some L0 ∧
        L0.length = [[mkM31 1], [mkM31 2]].length / 2) ∧
      (∀ i L L', t.intermediate_layers[i]? = some L →
        t.intermediate_layers[i + 1]? = some L' → L'.length = L.length / 2) ∧
      (∃ L, t.intermediate_layers.getLast? = some L ∧ L.length = 1 ∧
        L[0]? = some t.root_hash) :=
  claim_C5_layer_shape [[mkM31 1], [mkM31 2]] 1 (by decide) (by decide)

/-- C6: for every tree, even in-range query index and honestly generated
proof, changing any single field element of `left` or `right`, or any single
entry of `siblings`, makes verification return false.  In the ideal-hash
model the hash is a free term algebra, so the collision exception of the
claim cannot occur. -/
theorem claim_C6_tamper_sensitivity (leaves : List (List M31)) (k q : Nat)
    (hk : 1 ≤ k) (hlen : leaves.length = 2 ^ k) (hq : q % 2 = 0) (hlt : q < leaves.length) :
    ∃ t proof, MerkleTree.new leaves = .ok t ∧ t.query q = .ok proof ∧
      (∀ i x v, proof.left[i]? = some v → x ≠ v →
        MerkleTree.verify_twin t.root_hash t.intermediate_layers.length
          ⟨proof.left.set i x, proof.right, proof.siblings⟩ q = .ok false) ∧
      (∀ i x v, proof.right[i]? = some v → x ≠ v →
        MerkleTree.verify_twin t.root_hash t.intermediate_layers.length
          ⟨proof.left, proof.right.set i x, proof.siblings⟩ q = .ok false) ∧
      (∀ i x v, proof.siblings[i]? = some v → x ≠ v →
        MerkleTree.verify_twin t.root_hash t.intermediate_layers.length
          ⟨proof.left, proof.right, proof.siblings.set i x⟩ q = .ok false) := by
  obtain ⟨t, lv, rv, sibs, hnew, hleaf, hlayers, hlayerslen, hlv, hrv, hquery, hslen, hcs,
    hfold⟩ := merkle_query_spec leaves k q hk hlen hq hlt
  refine ⟨t, ⟨lv, rv, sibs⟩, hnew, hquery, ?_, ?_, ?_⟩
  · intro i x v hv hx
    rw [verify_twin_ok t.root_hash t.intermediate_layers.length ⟨lv.set i x, rv, sibs⟩ q
      (by rw [hlayerslen]; exact hk) (by rw [hlayerslen]; exact hslen) hq]
    simp only [Except.ok.injEq, beq_eq_false_iff_ne, ne_eq]
    intro heq
    rw [← hfold] at heq
    obtain ⟨hcur, -⟩ := foldVerify_inj sibs sibs (q / 2) _ _ rfl heq
    simp only [Hash.nodeHash.injEq, Hash.leafHash.injEq, and_true] at hcur
    have hv' : lv[i]? = some v := hv
    have hilt : i < lv.length := (List.getElem?_eq_some_iff.mp hv').1
    have hxeq : (lv.set i x)[i]? = some x := List.getElem?_set_self hilt
    rw [hcur, hv'] at hxeq
    simp at hxeq
    exact hx hxeq.symm
  · intro i x v hv hx
    rw [verify_twin_ok t.root_hash t.intermediate_layers.length ⟨lv, rv.set i x, sibs⟩ q
      (by rw [hlayerslen]; exact hk) (by rw [hlayerslen]; exact hslen) hq]
    simp only [Except.ok.injEq, beq_eq_false_iff_ne, ne_eq]
    intro heq
    rw [← hfold] at heq
    obtain ⟨hcur, -⟩ := foldVerify_inj sibs sibs (q / 2) _ _ rfl heq
    simp only [Hash.nodeHash.injEq, Hash.leafHash.injEq, and_true, true_and] at hcur
    have hv' : rv[i]? = some v := hv
    have hilt : i < rv.length := (List.getElem?_eq_some_iff.mp hv').1
    have hxeq : (rv.set i x)[i]? = some x := List.getElem?_set_self hilt
    rw [hcur, hv'] at hxeq
    simp at hxeq
    exact hx hxeq.symm
  · intro i x v hv hx
    rw [verify_twin_ok t.root_hash t.intermediate_layers.length ⟨lv, rv, sibs.set i x⟩ q
      (by rw [hlayerslen]; exact hk) (by rw [hlayerslen, ← hslen]; exact List.length_set sibs i x) hq]
    simp only [Except.ok.injEq, beq_eq_false_iff_ne, ne_eq]
    intro heq
    rw [← hfold] at heq
    obtain ⟨-, hset⟩ := foldVerify_inj (sibs.set i x) sibs (q / 2) _ _ (List.length_set sibs i x) heq
    have hv' : sibs[i]? = some v := hv
    have hilt : i < sibs.length := (List.getElem?_eq_some_iff.mp hv').1
    have hxeq : (sibs.set i x)[i]? = some x := List.getElem?_set_self hilt
    rw [hset, hv'] at hxeq
    simp at hxeq
    exact hx hxeq.symm

/-- Witness for C6 at a concrete two-leaf tree and query index 0. -/
theorem claim_C6_tamper_sensitivity_witness :
    ∃ t proof, MerkleTree.new [[mkM31 1, mkM31 2], [mkM31 3, mkM31 4]] = .ok t ∧
      t.query 0 = .ok proof ∧
      (∀ i x v, proof.left[i]? = some v → x ≠ v →
        MerkleTree.verify_twin t.root_hash t.intermediate_layers.length
          ⟨proof.left.set i x, proof.right, proof.siblings⟩ 0 = .ok false) ∧
      (∀ i x v, proof.right[i]? = some v → x ≠ v →
        MerkleTree.verify_twin t.root_hash t.intermediate_layers.length
          ⟨proof.left, proof.right.set i x, proof.siblings⟩ 0 = .ok false) ∧
      (∀ i x v, proof.siblings[i]? = some v → x ≠ v →
        MerkleTree.verify_twin t.root_hash t.intermediate_layers.length
          ⟨proof.left, proof.right, proof.siblings.set i x⟩ 0 = .ok false) :=
  claim_C6_tamper_sensitivity [[mkM31 1, mkM31 2], [mkM31 3, mkM31 4]] 1 0
    (by decide) (by decide) (by decide) (by decide)

/-- C7: contract violations fail fast with a panic instead of returning a
value: construction panics on a non-power-of-two leaf count, query panics on
an odd index, and verification panics (producing no boolean) on an odd index
or a sibling count different from depth - 1. -/
theorem claim_C7_contract_panics :
    (∀ leaves : List (List M31), is_power_of_two leaves.length = false →
      MerkleTree.new leaves = .error .assertFail) ∧
    (∀ (t : MerkleTree) (q : Nat), q % 2 = 1 → t.query q = .error .assertFail) ∧
    (∀ (root : Hash) (depth : Nat) (proof : MerkleTreeTwinProof) (q : Nat), 1 ≤ depth →
      (q % 2 = 1 ∨ proof.siblings.length ≠ depth - 1) →
      MerkleTree.verify_twin root depth proof q = .error .assertFail) := by
  refine ⟨?_, ?_, ?_⟩
  · intro leaves hpow
    simp [MerkleTree.new, hpow]
  · intro t q hq
    have hand : q &&& 1 = 1 := by rw [Nat.and_one_is_mod, hq]
    simp [MerkleTree.query, hand]
  · intro root depth proof q hd hbad
    have hd0 : ¬ depth = 0 := by omega
    rcases hbad with hq | hs'
    · have hand : q &&& 1 = 1 := by rw [Nat.and_one_is_mod, hq]
      by_cases hs : proof.siblings.length = depth - 1
      · simp [MerkleTree.verify_twin, hd0, hs, hand]
      · simp [MerkleTree.verify_twin, hd0, hs]
    · simp [MerkleTree.verify_twin, hd0, hs']

/-- Witness for C7: three concrete contract violations. -/
theorem claim_C7_contract_panics_witness :
    MerkleTree.new [[], [], []] = .error .assertFail ∧
    MerkleTree.query ⟨[], [], Hash.leafHash []⟩ 1 = .error .assertFail ∧
    MerkleTree.verify_twin (Hash.leafHash []) 1 ⟨[], [], [Hash.leafHash []]⟩ 0 =
      .error .assertFail :=
  ⟨claim_C7_contract_panics.1 [[], [], []] (by decide),
   claim_C7_contract_panics.2.1 ⟨[], [], Hash.leafHash []⟩ 1 (by decide),
   claim_C7_contract_panics.2.2 (Hash.leafHash []) 1 ⟨[], [], [Hash.leafHash []]⟩ 0
     (by decide) (Or.inr (by decide))⟩

/-- Folding a unit-appending push over a list appends the mapped list. -/
theorem foldl_push_append {α : Type} (f : α → PushUnit) :
    ∀ (l : List α) (b : Builder),
      l.foldl (fun acc v => acc ++ [f v]) b = b ++ l.map f := by
  intro l
  induction l with
  | nil => intro b; simp
  | cons a rest ih => intro b; simp [ih]

/-- C8: the proof linearization emits every element of `left` in order, then
every element of `right`, then every hash in `siblings`, with nothing else
interleaved. -/
theorem claim_C8_push_order (proof : MerkleTreeTwinProof) (builder : Builder) :
    proof.bitcoin_script_push builder =
      builder ++ proof.left.map PushUnit.fieldElem ++ proof.right.map PushUnit.fieldElem
        ++ proof.siblings.map PushUnit.hashVal := by
  simp only [MerkleTreeTwinProof.bitcoin_script_push, pushM31, pushHash]
  rw [foldl_push_append, foldl_push_append, foldl_push_append]

/-- C9: a one-element leaf list passes the power-of-two contract assertion
(1 is a power of two) yet construction still panics, by indexing position 0
of the empty first intermediate layer. -/
theorem claim_C9_single_leaf_panics (l : List M31) :
    is_power_of_two [l].length = true ∧ MerkleTree.new [l] = .error .indexOOB := by
  have hpow : is_power_of_two ([l] : List (List M31)).length = true := by
    show is_power_of_two 1 = true
    decide
  refine ⟨hpow, ?_⟩
  have hempty : buildLoop (leafPairLayer [l]) = ([], []) :=
    buildLoop_of_le (by simp [leafPairLayer, chunksExact2])
  simp [MerkleTree.new, hpow, hempty]
  decide

/-- C10: query checks only that the index is even, never the leaf count, so
an even query index at or beyond the leaf count panics via out-of-bounds
indexing rather than via the contract assertion. -/
theorem claim_C10_query_oob (leaves : List (List M31)) (k q : Nat)
    (hk : 1 ≤ k) (hlen : leaves.length = 2 ^ k) (hq : q % 2 = 0) (hge : leaves.length ≤ q) :
    ∃ t, MerkleTree.new leaves = .ok t ∧ t.query q = .error .indexOOB := by
  obtain ⟨root, hroot, hnew⟩ := merkle_new_spec leaves k hk hlen
  refine ⟨_, hnew, ?_⟩
  have hand : q &&& 1 = 0 := by rw [Nat.and_one_is_mod, hq]
  have hnone : leaves[q]? = none := List.getElem?_eq_none hge
  simp [MerkleTree.query, hand, hnone]

/-- Witness for C10 at a concrete two-leaf tree and query index 2. -/
theorem claim_C10_query_oob_witness :
    ∃ t, MerkleTree.new [[mkM31 1], [mkM31 2]] = .ok t ∧
      t.query 2 = .error .indexOOB :=
  claim_C10_query_oob [[mkM31 1], [mkM31 2]] 1 2 (by decide) (by decide) (by decide) (by decide)
